import Mathlib

/-!
Verification of the c3nav congress route planner against its specification.

The repository ships a single surface file, `src/src/main.py`, which wires a
Flask application around a routing/positioning core (`classes.py`: `Graph`,
`Router`, `UserPosition`, the wifi locator) that is imported but not part of
the excerpt.  Definitions below that embed code of `main.py` cite their line
numbers; definitions for the missing core are modelled from the specification
and say so in their doc comment.  All numeric data is embedded with exact
rationals, so "within rounding" statements become exact equalities.
-/

namespace C3nav

/-- Category of a connection (edge) of the walkable graph, per the data model:
plain ways, steps, stairs, escalators and elevators. -/
inductive CType where
  | plain
  | steps
  | stairs
  | escalator
  | elevator
deriving DecidableEq, Repr

/-- Policy value of one settings field: allow, deny, or a directional
restriction (up-only / down-only). -/
inductive Policy where
  | allow
  | deny
  | upOnly
  | downOnly
deriving DecidableEq, Repr

/-- Modelled from the spec: a `Node` of the `SpatialGraph` has a unique id, an
integer floor index and 2D coordinates. -/
structure Node where
  id : Nat
  level : Int
  x : ℚ
  y : ℚ
deriving DecidableEq, Repr

/-- Modelled from the spec: a `Connection` is an ordered pair of node ids with
a physical distance and a `ctype` tag.  The directionality qualifier of the
data model (bidirectional / up-only / down-only) is encoded by which directed
entries exist: a bidirectional link is stored as two directed connections, a
direction-restricted one as a single directed connection. -/
structure Connection where
  src : Nat
  dst : Nat
  distance : ℚ
  ctype : CType
deriving DecidableEq, Repr

/-- Modelled from the spec: a wifi reference position record with the fields
that `main.py` reads back from a locate result (name, title, level, x, y). -/
structure WifiPosition where
  name : String
  title : String
  level : Int
  x : ℚ
  y : ℚ
deriving DecidableEq, Repr

/-- Modelled from the spec: one entry of the `FingerprintIndex`: a known
reference point together with its expected signal strength per station
identifier. -/
structure RefPoint where
  pos : WifiPosition
  fingerprint : List (String × ℚ)
deriving DecidableEq, Repr

/-- Modelled from the spec: the per-project database of known wireless
stations and their observed signal characteristics. -/
structure FingerprintIndex where
  points : List RefPoint
deriving DecidableEq, Repr

/-- Modelled from the spec: the `SpatialGraph` loaded once at startup: nodes,
typed directed connections, and the optional wifi fingerprint database (absent
when `load_wifi` was disabled at construction). -/
structure Graph where
  nodes : List Node
  connections : List Connection
  wifi : Option FingerprintIndex
deriving DecidableEq, Repr

/-- Modelled from the spec: `Graph(project, auto_connect, load_wifi)` as
called in `src/src/main.py` line 38.  The wifi index is built exactly when
`load_wifi` holds.  The `auto_connect` edge inference is not modelled, as no
claim depends on it: the node and connection lists are taken as loaded. -/
def loadGraph (nodes : List Node) (connections : List Connection)
    (wifiData : FingerprintIndex) (load_wifi : Bool) : Graph :=
  ⟨nodes, connections, if load_wifi then some wifiData else none⟩

/-- Level of a node id in a graph (0 if the id is unknown). -/
def levelOf (g : Graph) (nid : Nat) : Int :=
  match g.nodes.find? (fun n => n.id == nid) with
  | some n => n.level
  | none => 0

/-- Modelled from the spec: the per-request `Router` settings, one policy per
constraint name (`steps`, `stairs`, `escalators`, `elevators`). -/
structure RouterSettings where
  steps : Policy
  stairs : Policy
  escalators : Policy
  elevators : Policy
deriving DecidableEq, Repr

/-- Policy a settings object assigns to a connection type; plain ways are
always allowed. -/
def policyFor (s : RouterSettings) : CType → Policy
  | .plain => .allow
  | .steps => s.steps
  | .stairs => s.stairs
  | .escalator => s.escalators
  | .elevator => s.elevators

/-- Modelled from the spec: per-type time/effort multiplier of the traversal
cost (escalators get a reduced effort multiplier, stairs an increased one). -/
def speedFactor : CType → ℚ
  | .plain => 1
  | .steps => 6 / 5
  | .stairs => 3 / 2
  | .escalator => 4 / 5
  | .elevator => 1

/-- Modelled from the spec: fixed per-type penalty of the traversal cost
(elevators incur a fixed wait penalty). -/
def fixedPenalty : CType → ℚ
  | .elevator => 30
  | _ => 0

/-- Modelled from the spec: type-specific traversal cost of one connection,
combining physical distance with the per-type multiplier and penalty. -/
def edgeCost (c : Connection) : ℚ :=
  c.distance * speedFactor c.ctype + fixedPenalty c.ctype

/-- Modelled from the spec: the heavy-but-finite penalty applied to denied
connection types during relaxation. -/
def avoidPenalty : ℚ := 100000

/-- Whether one connection respects the directional (up-only / down-only)
restriction its ctype policy imposes; deny and allow impose none. -/
def edgeDirAllowed (g : Graph) (s : RouterSettings) (c : Connection) : Bool :=
  match policyFor s c.ctype with
  | .upOnly => decide (levelOf g c.src ≤ levelOf g c.dst)
  | .downOnly => decide (levelOf g c.dst ≤ levelOf g c.src)
  | _ => true

/-- Whether one connection is usable in the strict (non-relaxed) search: its
ctype is not denied and its direction is allowed. -/
def edgeStrictAllowed (g : Graph) (s : RouterSettings) (c : Connection) : Bool :=
  !(policyFor s c.ctype == Policy.deny) && edgeDirAllowed g s c

/-- Modelled from the spec: relaxed traversal cost: denied ctypes are
heavily penalized but not infinite. -/
def relaxedEdgeCost (s : RouterSettings) (c : Connection) : ℚ :=
  edgeCost c + (if policyFor s c.ctype == Policy.deny then avoidPenalty else 0)

/-- Whether a list of connections chains from node `o` to node `d`: each
connection starts where the previous one ended. -/
def isChain (o d : Nat) : List Connection → Bool
  | [] => o == d
  | c :: rest => c.src == o && isChain c.dst d rest

/-- Whether `p` is a path of graph `g` from `o` to `d`: a chain all of whose
connections are stored connections of the graph. -/
def isPath (g : Graph) (o d : Nat) (p : List Connection) : Bool :=
  p.all (fun c => g.connections.contains c) && isChain o d p

/-- Whether every connection of a path is usable in the strict search. -/
def pathStrictAllowed (g : Graph) (s : RouterSettings) (p : List Connection) : Bool :=
  p.all (edgeStrictAllowed g s)

/-- Whether every connection of a path respects the directional restrictions
(the condition kept during relaxation). -/
def pathDirAllowed (g : Graph) (s : RouterSettings) (p : List Connection) : Bool :=
  p.all (edgeDirAllowed g s)

/-- Total strict cost of a path. -/
def pathCost (p : List Connection) : ℚ :=
  (p.map edgeCost).sum

/-- Total relaxed cost of a path. -/
def relaxedPathCost (s : RouterSettings) (p : List Connection) : ℚ :=
  (p.map (relaxedEdgeCost s)).sum

/-- Total physical distance of a path. -/
def pathDist (p : List Connection) : ℚ :=
  (p.map Connection.distance).sum

/-- Number of connection-type transitions along a path: positions where two
consecutive connections have different ctypes. -/
def transitions : List Connection → Nat
  | [] => 0
  | [_] => 0
  | a :: b :: rest => (if a.ctype == b.ctype then 0 else 1) + transitions (b :: rest)

/-- Depth-first enumeration of the simple paths of `g` from `o` to `d` that
avoid the already `visited` nodes, with explicit fuel bounding the recursion
depth.  Modelled from the spec: the router performs a bounded single-source
search over the finite graph. -/
def pathsFrom (g : Graph) (visited : List Nat) (o d : Nat) : Nat → List (List Connection)
  | 0 => []
  | fuel + 1 =>
    (if o == d then [([] : List Connection)] else []) ++
      (g.connections.filter (fun c => c.src == o && !visited.contains c.dst)).flatMap
        (fun c => (pathsFrom g (c.dst :: visited) c.dst d fuel).map (fun p => c :: p))

/-- All simple paths of `g` from `o` to `d` (no node visited twice). -/
def simplePaths (g : Graph) (o d : Nat) : List (List Connection) :=
  pathsFrom g [o] o d (g.connections.length + 1)

/-- First element of a list minimizing `key`, under any linear order on keys;
`none` exactly on the empty list.  The fold keeps the earlier element on ties,
which makes the selection deterministic. -/
def argminKey {α β : Type} [LinearOrder β] (key : α → β) : List α → Option α
  | [] => none
  | x :: xs => some (xs.foldl (fun b a => if key a < key b then a else b) x)

/-- First element of a list maximizing `key`; `none` exactly on the empty
list.  The fold keeps the earlier element on ties. -/
def argmaxKey {α β : Type} [LinearOrder β] (key : α → β) : List α → Option α
  | [] => none
  | x :: xs => some (xs.foldl (fun b a => if key b < key a then a else b) x)

/-- Severity of a human-facing router message. -/
inductive Severity where
  | info
  | warn
  | error
deriving DecidableEq, Repr

/-- A human-facing message: severity and text. -/
abbrev Message := Severity × String

/-- Modelled from the spec: `RouteResult`: the computed path between the two
endpoints plus the flag noting whether the deny constraints had to be
relaxed. -/
structure Route where
  path : List Connection
  origin : Nat
  dest : Nat
  relaxed : Bool
deriving DecidableEq, Repr

/-- Search key of the strict phase: total cost, with ties broken by total
distance and then by fewer connection-type transitions (lexicographically). -/
def strictKey (p : List Connection) : ℚ ×ₗ ℚ ×ₗ ℕ :=
  toLex (pathCost p, toLex (pathDist p, transitions p))

/-- Search key of the relaxed phase: relaxed total cost, same tie-breaks. -/
def relaxedKey (s : RouterSettings) (p : List Connection) : ℚ ×ₗ ℚ ×ₗ ℕ :=
  toLex (relaxedPathCost s p, toLex (pathDist p, transitions p))

/-- Text of the message returned when no route exists even after
relaxation. -/
def noRouteMsg : String := "no route found between the selected locations"

/-- Modelled from the spec: `Router.get_route(origin, destination)`.  The
strict attempt prunes denied ctypes and disallowed directions and returns the
cheapest surviving path; if none survives, the relaxed attempt converts denies
into heavy finite penalties (still respecting directionality) and marks the
result relaxed; if still no path exists, the route is absent and an
explanatory message is returned instead of a failure. -/
def get_route (g : Graph) (s : RouterSettings) (o d : Nat) :
    List Message × Option Route :=
  let cands := simplePaths g o d
  match argminKey strictKey (cands.filter (pathStrictAllowed g s)) with
  | some p => ([], some ⟨p, o, d, false⟩)
  | none =>
    match argminKey (relaxedKey s) (cands.filter (pathDirAllowed g s)) with
    | some p => ([], some ⟨p, o, d, true⟩)
    | none => ([(Severity.error, noRouteMsg)], none)

/-- Direction of travel of one connection, from the levels of its
endpoints. -/
inductive TravelDir where
  | flat
  | up
  | down
deriving DecidableEq, Repr

/-- Travel direction of a connection in a graph. -/
def travelDir (g : Graph) (c : Connection) : TravelDir :=
  if levelOf g c.src < levelOf g c.dst then .up
  else if levelOf g c.dst < levelOf g c.src then .down
  else .flat

/-- One logical leg of a described route: summed distance, derived duration,
and the shared ctype and travel direction of its connections. -/
structure Segment where
  distance : ℚ
  duration : ℚ
  ctype : CType
  dir : TravelDir
deriving DecidableEq, Repr

/-- Modelled from the spec: duration of a leg from the fixed speed/penalty
table of its ctype. -/
def segDuration (t : CType) (dist : ℚ) : ℚ :=
  dist * speedFactor t + fixedPenalty t

/-- Accumulator loop of the segment collapse: `t`, `dr` and `acc` describe the
leg currently being accumulated. -/
def collapseGo (g : Graph) (t : CType) (dr : TravelDir) (acc : ℚ) :
    List Connection → List Segment
  | [] => [⟨acc, segDuration t acc, t, dr⟩]
  | c :: rest =>
    if c.ctype == t && travelDir g c == dr then
      collapseGo g t dr (acc + c.distance) rest
    else
      ⟨acc, segDuration t acc, t, dr⟩ :: collapseGo g c.ctype (travelDir g c) c.distance rest

/-- Modelled from the spec: consecutive connections of identical ctype and
travel direction are collapsed into one logical leg, in traversal order. -/
def collapseSegments (g : Graph) : List Connection → List Segment
  | [] => []
  | c :: rest => collapseGo g c.ctype (travelDir g c) c.distance rest

/-- Modelled from the spec: `route.describe()` returns the ordered segment
list and the `had_avoided_ctypes` flag, which mirrors whether relaxation
occurred upstream. -/
def describe (g : Graph) (r : Route) : List Segment × Bool :=
  (collapseSegments g r.path, r.relaxed)

/-- Text of the warning `main.py` lines 154-156 appends when the route had to
use avoided way types. -/
def relaxWarning : String :=
  "This route contains way types that you wanted to avoid because otherwise no route would be possible."

/-- Embeds `src/src/main.py` lines 151-157: run the router, and when a route
came back and its description reports avoided ctypes, append the warning
message.  Returns the final message list and the described route. -/
def mainRouteHandling (g : Graph) (s : RouterSettings) (o d : Nat) :
    List Message × Option (List Segment × Bool) :=
  let mr := get_route g s o d
  match mr.2 with
  | none => (mr.1, none)
  | some route =>
    let desc := describe g route
    ((if desc.2 then mr.1 ++ [(Severity.warn, relaxWarning)] else mr.1), some desc)

/-- Modelled from the spec: an ephemeral `Position` (level, x, y), not part of
the stored graph. -/
structure Position where
  level : Int
  x : ℚ
  y : ℚ
deriving DecidableEq, Repr

/-- Modelled from the spec: one temporary attachment edge of a
`UserPosition`: the node it attaches to and its traversal cost. -/
structure TempEdge where
  node : Nat
  cost : ℚ
deriving DecidableEq, Repr

/-- Modelled from the spec: a `UserPosition`: a position dynamically attached
to the graph by temporary edges; it exists only for one request and is kept
outside the shared graph. -/
structure UserPosition where
  pos : Position
  edges : List TempEdge
deriving DecidableEq, Repr

/-- Absolute value on ℚ, written out so that closed instances evaluate. -/
def ratAbs (q : ℚ) : ℚ :=
  if q < 0 then -q else q

/-- Modelled from the spec: estimated walking distance between a position and
a node, used to weight temporary attachment edges (rectilinear estimate, kept
exact in ℚ). -/
def estWalkDist (p : Position) (n : Node) : ℚ :=
  ratAbs (p.x - n.x) + ratAbs (p.y - n.y)

/-- Modelled from the spec: the bounded search radius of position snapping. -/
def snapRadius : ℚ := 300

/-- Modelled from the spec: `Graph.connect_position(pos)` finds the nodes of
the same level within the snapping radius and creates temporary attachment
edges to them, weighted by estimated walking distance; with no node in range
the `UserPosition` simply has zero temporary edges. -/
def connect_position (g : Graph) (p : Position) : UserPosition :=
  ⟨p,
    (g.nodes.filter
        (fun n => n.level == p.level && decide (estWalkDist p n ≤ snapRadius))).map
      (fun n => ⟨n.id, estWalkDist p n⟩)⟩

/-- State-passing form of `connect_position` as used by `main.py` lines
240-241: the pair of the graph as stored after the call and the request-local
`UserPosition`.  The shared graph is returned unchanged: temporary edges live
only in the `UserPosition`. -/
def connectPositionState (g : Graph) (p : Position) : Graph × UserPosition :=
  (g, connect_position g p)

/-- Submitted wifi readings: observed signal strength per station
identifier. -/
abbrev Readings := List (String × ℚ)

/-- Whether a station identifier is known to the index, i.e. appears in some
reference fingerprint. -/
def stationKnown (idx : FingerprintIndex) (sid : String) : Bool :=
  idx.points.any (fun r => r.fingerprint.any (fun f => f.1 == sid))

/-- Number of submitted stations a reference point shares with the
readings. -/
def matchedCount (r : RefPoint) (readings : Readings) : Nat :=
  (readings.filter (fun e => r.fingerprint.any (fun f => f.1 == e.1))).length

/-- Summed signal-strength disagreement over the shared stations of a
reference point and the readings. -/
def sigDiff (r : RefPoint) (readings : Readings) : ℚ :=
  (readings.map (fun e =>
      match r.fingerprint.find? (fun f => f.1 == e.1) with
      | some f => ratAbs (f.2 - e.2)
      | none => 0)).sum

/-- Modelled from the spec: reward per matched station of the similarity
function. -/
def matchBonus : ℚ := 10

/-- Modelled from the spec: the minimum-confidence threshold below which a
best candidate is not reported. -/
def minConfidence : ℚ := 1

/-- Modelled from the spec: similarity score of a candidate reference point,
rewarding more matched stations and closer signal-strength agreement. -/
def score (r : RefPoint) (readings : Readings) : ℚ :=
  (matchedCount r readings : ℚ) * matchBonus - sigDiff r readings

/-- Candidate reference points of a locate call: those sharing at least one
submitted station with the readings. -/
def candidates (idx : FingerprintIndex) (readings : Readings) : List RefPoint :=
  idx.points.filter (fun r => decide (0 < matchedCount r readings))

/-- Modelled from the spec: `PositionLocator.locate(readings)` scores the
candidate reference points by similarity and returns the best one with its
score and matched station count, or `none` when no submitted station is known
or the best score is below the minimum-confidence threshold. -/
def locate (idx : FingerprintIndex) (readings : Readings) :
    Option (WifiPosition × ℚ × Nat) :=
  match argmaxKey (fun r => score r readings) (candidates idx readings) with
  | none => none
  | some best =>
    if score best readings < minConfidence then none
    else some (best.pos, score best readings, matchedCount best readings)

/-- Error raised when the locator is used although wifi loading was
disabled. -/
inductive ConfigError where
  | wifiNotLoaded
deriving DecidableEq, Repr

/-- Modelled from the spec: a call of `graph.wifi.locate(...)` as in `main.py`
line 253: a configuration error when the graph was built without wifi
loading, the locate result otherwise. -/
def locateCall (g : Graph) (readings : Readings) :
    Except ConfigError (Option (WifiPosition × ℚ × Nat)) :=
  match g.wifi with
  | none => .error .wifiNotLoaded
  | some idx => .ok (locate idx readings)

/-- A loosely-typed Python value as it can appear in the settings source or
the decoded settings cookie: a string, an integer, or a list. -/
inductive PyVal where
  | str (s : String)
  | int (n : Int)
  | list (l : List PyVal)

/-- Python `isinstance(v, str)`. -/
def pyIsStr : PyVal → Bool
  | .str _ => true
  | _ => false

/-- Python `isinstance(v, int)`. -/
def pyIsInt : PyVal → Bool
  | .int _ => true
  | _ => false

/-- Python `isinstance(v, list)`. -/
def pyIsList : PyVal → Bool
  | .list _ => true
  | _ => false

/-- Python `isinstance(v, collections.Iterable)`: both strings and lists are
iterable, integers are not. -/
def pyIsIterable : PyVal → Bool
  | .str _ => true
  | .list _ => true
  | .int _ => false

/-- Association lookup in a decoded Python dict. -/
def lookupPy (l : List (String × PyVal)) (k : String) : Option PyVal :=
  (l.find? (fun e => e.1 == k)).map (fun e => e.2)

/-- The request value source (`request.args` or `request.form`): an ordered
multi-dict of string entries. -/
structure ReqSrc where
  entries : List (String × String)
deriving DecidableEq, Repr

/-- Flask `src.getlist(name)`: every value stored under the key, in order. -/
def ReqSrc.getlist (r : ReqSrc) (k : String) : List String :=
  (r.entries.filter (fun e => e.1 == k)).map (fun e => e.2)

/-- Flask `src.get(name)`: the first value stored under the key, if any. -/
def ReqSrc.getFirst (r : ReqSrc) (k : String) : Option String :=
  (r.entries.find? (fun e => e.1 == k)).map (fun e => e.2)

/-- Python `name in src`. -/
def ReqSrc.hasKey (r : ReqSrc) (k : String) : Bool :=
  r.entries.any (fun e => e.1 == k)

/-- Modelled from the spec: `Router.default_settings`, the fixed schema the
settings loop of `main.py` iterates: one string policy (default allow) per
constraint name, and the excluded-connection list `e` (default empty).  The
policy strings are those `main.py` line 137 dispatches on. -/
def default_settings : List (String × PyVal) :=
  [("steps", .str "yes"), ("stairs", .str "yes"), ("escalators", .str "yes"),
    ("elevators", .str "yes"), ("e", .list [])]

/-- Embeds the `try: json.loads(...) except: pass` of `main.py` lines 98-104:
a malformed settings cookie leaves the decoded cookie settings empty instead
of failing the request. -/
def effectiveCookie (decoded : Option (List (String × PyVal))) : List (String × PyVal) :=
  decoded.getD []

/-- Embeds the body of the settings loop of `src/src/main.py` lines 107-121
for one field `name` with schema default `dv`: the value stored into
`setsettings`, or `none` when the field is left out (and so falls back to its
default). -/
def settingsField (src : ReqSrc) (cookie : List (String × PyVal))
    (name : String) (dv : PyVal) : Option PyVal :=
  if !pyIsStr dv && pyIsIterable dv then
    let value := src.getlist name
    if !value.isEmpty || src.hasKey ("force-" ++ name) then
      some (.list (value.map .str))
    else
      match lookupPy cookie name with
      | some cv => if pyIsList cv then some cv else none
      | none => none
  else if src.hasKey name then
    (src.getFirst name).map .str
  else
    match lookupPy cookie name with
    | some cv =>
      if (pyIsIterable cv && pyIsStr dv) || (pyIsInt cv && pyIsInt dv) then some cv
      else none
    | none => none

/-- Embeds the whole settings loop of `src/src/main.py` lines 106-121: the
`setsettings` dict built field by field over the fixed schema. -/
def buildSetSettings (src : ReqSrc) (cookie : List (String × PyVal)) :
    List (String × PyVal) :=
  default_settings.filterMap
    (fun e => (settingsField src cookie e.1 e.2).map (fun v => (e.1, v)))

/-- Modelled from the spec: the `Router` merges the partial `setsettings` over
the fixed `default_settings` schema, so every omitted field falls back to its
schema default (`router.settings` as read back by `main.py` line 124). -/
def routerSettings (src : ReqSrc) (cookie : List (String × PyVal)) :
    List (String × PyVal) :=
  default_settings.map
    (fun e => (e.1, (lookupPy (buildSetSettings src cookie) e.1).getD e.2))

/-- The `LANGUAGES` table of `src/src/main.py` lines 19-22. -/
def LANGUAGES : List (String × String) :=
  [("en", "English"), ("de", "Deutsch")]

/-- The keys of the `LANGUAGES` table. -/
def langKeys : List String := LANGUAGES.map Prod.fst

/-- Embeds `get_locale` of `src/src/main.py` lines 42-49: start from the
default locale, replace it by the `lang` cookie when that is a known language,
then by the `lang` query parameter when that is a known language. -/
def get_locale (cookieLang argLang : Option String) : String :=
  let locale0 := "en"
  let locale1 :=
    match cookieLang with
    | some l => if langKeys.contains l then l else locale0
    | none => locale0
  match argLang with
  | some l => if langKeys.contains l then l else locale1
  | none => locale1

/-- The locale selection as the claim words it: the query parameter when
known, otherwise the cookie when known, otherwise the default.  Stated from
the spec for comparison with `get_locale`. -/
def claimedLocale (cookieLang argLang : Option String) : String :=
  if (argLang.map langKeys.contains).getD false then argLang.getD "en"
  else if (cookieLang.map langKeys.contains).getD false then cookieLang.getD "en"
  else "en"

/-- The explicit lexicographic reading of the search keys: smaller cost, or
equal cost and smaller distance, or equal cost and distance and no more
transitions. -/
def tieLe (c1 d1 : ℚ) (t1 : ℕ) (c2 d2 : ℚ) (t2 : ℕ) : Prop :=
  c1 < c2 ∨ (c1 = c2 ∧ (d1 < d2 ∨ (d1 = d2 ∧ t1 ≤ t2)))

/-! Concrete inputs used to exercise the theorems below on closed data. -/

/-- A two-level graph whose only connection is an ascending stairs edge. -/
def stairsUpGraph : Graph :=
  ⟨[⟨0, 0, 0, 0⟩, ⟨1, 1, 0, 0⟩], [⟨0, 1, 5, .stairs⟩], none⟩

/-- Settings restricting stairs to downward travel, everything else
allowed. -/
def downOnlySettings : RouterSettings :=
  ⟨.allow, .downOnly, .allow, .allow⟩

/-- Settings allowing every connection type. -/
def allowAll : RouterSettings :=
  ⟨.allow, .allow, .allow, .allow⟩

/-- Settings denying elevators, everything else allowed. -/
def denyElevators : RouterSettings :=
  ⟨.allow, .allow, .allow, .deny⟩

/-- A one-level graph with a single plain connection between two nodes. -/
def plainGraph : Graph :=
  ⟨[⟨0, 0, 0, 0⟩, ⟨1, 0, 10, 0⟩], [⟨0, 1, 10, .plain⟩, ⟨1, 0, 10, .plain⟩], none⟩

/-- The scenario of the spec: two regions joined only by an elevator (one
directed connection each way). -/
def elevatorGraph : Graph :=
  ⟨[⟨0, 0, 0, 0⟩, ⟨1, 1, 0, 0⟩], [⟨0, 1, 10, .elevator⟩, ⟨1, 0, 10, .elevator⟩], none⟩

/-- Two nodes with no connection at all. -/
def disconnectedGraph : Graph :=
  ⟨[⟨0, 0, 0, 0⟩, ⟨1, 0, 50, 0⟩], [], none⟩

/-- A position coinciding with node 0 of `plainGraph`. -/
def atNodePosition : Position := ⟨0, 0, 0⟩

/-- A position far away from every node of `plainGraph`. -/
def farPosition : Position := ⟨0, 100000, 100000⟩

/-- A one-point fingerprint index. -/
def idx1 : FingerprintIndex :=
  ⟨[⟨⟨"p1", "Point 1", 0, 1, 2⟩, [("aa", 50), ("bb", 70)]⟩]⟩

/-- Readings naming only stations unknown to `idx1`. -/
def unknownReadings : Readings := [("zz", 40)]

/-- Readings matching the fingerprint of `idx1` exactly. -/
def exactReadings : Readings := [("aa", 50), ("bb", 70)]

/-- An empty request source. -/
def emptySrc : ReqSrc := ⟨[]⟩

/-- A decoded settings cookie storing a list under the string-policy field
`steps`. -/
def listStepsCookie : List (String × PyVal) :=
  [("steps", .list [.str "no"])]

/-! Helper lemmas about chains and the simple-path enumeration. -/

theorem isChain_nil_iff {o d : Nat} : isChain o d [] = true ↔ o = d := by
  simp [isChain]

theorem isChain_cons_iff {o d : Nat} {c : Connection} {rest : List Connection} :
    isChain o d (c :: rest) = true ↔ c.src = o ∧ isChain c.dst d rest = true := by
  simp [isChain]

theorem isChain_append_split {d : Nat} {xs ys : List Connection} :
    ∀ {o : Nat}, isChain o d (xs ++ ys) = true →
      ∃ m, isChain o m xs = true ∧ isChain m d ys = true := by
  induction xs with
  | nil =>
    intro o h
    exact ⟨o, by simp [isChain], by simpa using h⟩
  | cons c xs ih =>
    intro o h
    rw [List.cons_append, isChain_cons_iff] at h
    obtain ⟨hsrc, hrest⟩ := h
    obtain ⟨m, h1, h2⟩ := ih hrest
    exact ⟨m, by rw [isChain_cons_iff]; exact ⟨hsrc, h1⟩, h2⟩

theorem pathsFrom_sound {g : Graph} {d : Nat} :
    ∀ {fuel : Nat} {visited : List Nat} {o : Nat} {p : List Connection},
      p ∈ pathsFrom g visited o d fuel →
        isChain o d p = true ∧ ∀ c ∈ p, c ∈ g.connections := by
  intro fuel
  induction fuel with
  | zero => intro visited o p h; simp [pathsFrom] at h
  | succ fuel ih =>
    intro visited o p h
    rw [pathsFrom, List.mem_append] at h
    rcases h with h | h
    · have hod : (o == d) = true := by
        by_contra hne
        simp [Bool.not_eq_true] at hne
        simp [hne] at h
      simp [hod] at h
      subst h
      refine ⟨by simpa [isChain] using hod, by simp⟩
    · rw [List.mem_flatMap] at h
      obtain ⟨c, hc, hp⟩ := h
      rw [List.mem_map] at hp
      obtain ⟨q, hq, rfl⟩ := hp
      rw [List.mem_filter] at hc
      obtain ⟨hcg, hcc⟩ := hc
      have hsrc : c.src = o := by
        have := (Bool.and_eq_true _ _).mp hcc |>.1
        simpa using this
      obtain ⟨hchain, hmem⟩ := ih hq
      refine ⟨by rw [isChain_cons_iff]; exact ⟨hsrc, hchain⟩, ?_⟩
      intro e he
      rcases List.mem_cons.mp he with rfl | he
      · exact hcg
      · exact hmem e he

theorem pathsFrom_complete {g : Graph} {d : Nat} :
    ∀ {fuel : Nat} {o : Nat} {visited : List Nat} {p : List Connection},
      isChain o d p = true → (∀ c ∈ p, c ∈ g.connections) →
      (o :: p.map Connection.dst).Nodup →
      (∀ n ∈ p.map Connection.dst, n ∉ visited) →
      p.length < fuel → p ∈ pathsFrom g visited o d fuel := by
  intro fuel
  induction fuel with
  | zero => intro o visited p _ _ _ _ hlen; omega
  | succ fuel ih =>
    intro o visited p hchain hmem hnodup hvis hlen
    rw [pathsFrom, List.mem_append]
    match p with
    | [] =>
      left
      have : o = d := isChain_nil_iff.mp hchain
      simp [this]
    | c :: rest =>
      right
      rw [isChain_cons_iff] at hchain
      obtain ⟨hsrc, hrest⟩ := hchain
      rw [List.mem_flatMap]
      refine ⟨c, ?_, ?_⟩
      · rw [List.mem_filter]
        refine ⟨hmem c (by simp), ?_⟩
        have hdvis : c.dst ∉ visited := hvis c.dst (by simp)
        simp [hsrc, hdvis]
      · rw [List.mem_map]
        refine ⟨rest, ?_, rfl⟩
        apply ih hrest (fun e he => hmem e (List.mem_cons_of_mem c he))
        · have h2 := (List.nodup_cons.mp hnodup).2
          simpa using h2
        · intro n hn
          rw [List.mem_cons]
          push_neg
          constructor
          · have hnd := (List.nodup_cons.mp ((List.nodup_cons.mp hnodup).2)).1
            intro heq
            exact hnd (heq ▸ hn)
          · exact hvis n (by simp [hn])
        · simpa using Nat.lt_of_succ_lt_succ hlen

theorem simplePaths_sound {g : Graph} {o d : Nat} {p : List Connection}
    (h : p ∈ simplePaths g o d) : isPath g o d p = true := by
  obtain ⟨hchain, hmem⟩ := pathsFrom_sound h
  rw [isPath, Bool.and_eq_true, List.all_eq_true]
  exact ⟨fun c hc => by simpa [List.contains] using (List.elem_eq_true_of_mem (hmem c hc)), hchain⟩

theorem mem_connections_of_isPath {g : Graph} {o d : Nat} {p : List Connection}
    (h : isPath g o d p = true) : ∀ c ∈ p, c ∈ g.connections := by
  rw [isPath, Bool.and_eq_true, List.all_eq_true] at h
  intro c hc
  have := h.1 c hc
  simpa [List.contains] using this

theorem isChain_of_isPath {g : Graph} {o d : Nat} {p : List Connection}
    (h : isPath g o d p = true) : isChain o d p = true :=
  ((Bool.and_eq_true _ _).mp h).2

theorem isPath_of_parts {g : Graph} {o d : Nat} {p : List Connection}
    (hchain : isChain o d p = true) (hmem : ∀ c ∈ p, c ∈ g.connections) :
    isPath g o d p = true := by
  rw [isPath, Bool.and_eq_true, List.all_eq_true]
  exact ⟨fun c hc => by simpa [List.contains] using List.elem_eq_true_of_mem (hmem c hc), hchain⟩

theorem simplePaths_complete {g : Graph} {o d : Nat} {p : List Connection}
    (hchain : isChain o d p = true) (hmem : ∀ c ∈ p, c ∈ g.connections)
    (hnodup : (o :: p.map Connection.dst).Nodup) : p ∈ simplePaths g o d := by
  have hpnodup : p.Nodup :=
    List.Nodup.of_map Connection.dst (List.nodup_cons.mp hnodup).2
  have hlen : p.length ≤ g.connections.length :=
    (List.subperm_of_subset hpnodup (fun c hc => hmem c hc)).length_le
  exact pathsFrom_complete hchain hmem hnodup
    (fun n hn => by
      rw [List.mem_singleton]
      intro heq
      exact (List.nodup_cons.mp hnodup).1 (heq ▸ hn))
    (Nat.lt_succ_of_le hlen)

theorem chain_to_simple {d : Nat} :
    ∀ (n : Nat) (o : Nat) (p : List Connection), p.length ≤ n → isChain o d p = true →
      ∃ q, q.Sublist p ∧ isChain o d q = true ∧ (o :: q.map Connection.dst).Nodup := by
  intro n
  induction n with
  | zero =>
    intro o p hlen hchain
    have : p = [] := List.length_eq_zero.mp (Nat.le_zero.mp hlen)
    subst this
    exact ⟨[], List.Sublist.refl _, hchain, by simp⟩
  | succ n ih =>
    intro o p hlen hchain
    by_cases hmem : o ∈ p.map Connection.dst
    · rw [List.mem_map] at hmem
      obtain ⟨c, hc, hcdst⟩ := hmem
      obtain ⟨s, t, rfl⟩ := List.append_of_mem hc
      obtain ⟨m, _, h2⟩ := isChain_append_split hchain
      rw [isChain_cons_iff] at h2
      have htchain : isChain o d t = true := hcdst ▸ h2.2
      have htlen : t.length ≤ n := by
        have := hlen
        simp only [List.length_append, List.length_cons] at this
        omega
      obtain ⟨q, hsub, hqchain, hqnodup⟩ := ih o t htlen htchain
      exact ⟨q, hsub.trans ((List.sublist_cons_self c t).trans
        (List.sublist_append_right s (c :: t))), hqchain, hqnodup⟩
    · match p with
      | [] => exact ⟨[], List.Sublist.refl _, hchain, by simp⟩
      | c :: rest =>
        rw [isChain_cons_iff] at hchain
        obtain ⟨hsrc, hrest⟩ := hchain
        have hrlen : rest.length ≤ n := by
          simp only [List.length_cons] at hlen
          omega
        obtain ⟨q, hsub, hqchain, hqnodup⟩ := ih c.dst rest hrlen hrest
        refine ⟨c :: q, hsub.cons₂ c, ?_, ?_⟩
        · rw [isChain_cons_iff]; exact ⟨hsrc, hqchain⟩
        · rw [List.map_cons, List.nodup_cons]
          refine ⟨?_, hqnodup⟩
          rw [List.mem_cons]
          push_neg
          constructor
          · intro heq
            apply hmem
            rw [List.map_cons, List.mem_cons]
            exact Or.inl heq
          · intro hq
            apply hmem
            rw [List.map_cons, List.mem_cons]
            exact Or.inr ((List.Sublist.map Connection.dst hsub).subset hq)

/-! Helper lemmas about the deterministic argmin / argmax selection. -/

theorem argmin_foldl_spec {α β : Type} [LinearOrder β] (key : α → β) :
    ∀ (xs : List α) (x : α),
      (xs.foldl (fun b a => if key a < key b then a else b) x = x ∨
        xs.foldl (fun b a => if key a < key b then a else b) x ∈ xs) ∧
      key (xs.foldl (fun b a => if key a < key b then a else b) x) ≤ key x ∧
      ∀ a ∈ xs, key (xs.foldl (fun b a => if key a < key b then a else b) x) ≤ key a := by
  intro xs
  induction xs with
  | nil => intro x; exact ⟨Or.inl rfl, le_refl _, by simp⟩
  | cons y ys ih =>
    intro x
    rw [List.foldl_cons]
    obtain ⟨hmem, hle, hall⟩ := ih (if key y < key x then y else x)
    by_cases hyx : key y < key x
    · rw [if_pos hyx] at hmem hle hall ⊢
      refine ⟨?_, le_trans hle (le_of_lt hyx), ?_⟩
      · rcases hmem with h | h
        · exact Or.inr (by rw [h]; exact List.mem_cons_self y ys)
        · exact Or.inr (List.mem_cons_of_mem y h)
      · intro a ha
        rcases List.mem_cons.mp ha with rfl | ha
        · exact hle
        · exact hall a ha
    · rw [if_neg hyx] at hmem hle hall ⊢
      refine ⟨?_, hle, ?_⟩
      · rcases hmem with h | h
        · exact Or.inl h
        · exact Or.inr (List.mem_cons_of_mem y h)
      · intro a ha
        rcases List.mem_cons.mp ha with rfl | ha
        · exact le_trans hle (le_of_not_lt hyx)
        · exact hall a ha

theorem argminKey_mem {α β : Type} [LinearOrder β] {key : α → β} {l : List α} {x : α}
    (h : argminKey key l = some x) : x ∈ l := by
  match l with
  | [] => simp [argminKey] at h
  | y :: ys =>
    rw [argminKey, Option.some_inj] at h
    obtain ⟨hmem, _, _⟩ := argmin_foldl_spec key ys y
    rcases hmem with hm | hm
    · rw [← h, hm]; exact List.mem_cons_self y ys
    · rw [← h]; exact List.mem_cons_of_mem y hm

theorem argminKey_le {α β : Type} [LinearOrder β] {key : α → β} {l : List α} {x : α}
    (h : argminKey key l = some x) : ∀ a ∈ l, key x ≤ key a := by
  match l with
  | [] => simp [argminKey] at h
  | y :: ys =>
    rw [argminKey, Option.some_inj] at h
    obtain ⟨_, hle, hall⟩ := argmin_foldl_spec key ys y
    intro a ha
    rcases List.mem_cons.mp ha with rfl | ha
    · exact h ▸ hle
    · exact h ▸ hall a ha

theorem argminKey_eq_none {α β : Type} [LinearOrder β] {key : α → β} {l : List α} :
    argminKey key l = none ↔ l = [] := by
  match l with
  | [] => simp [argminKey]
  | y :: ys => simp [argminKey]

theorem argmax_foldl_spec {α β : Type} [LinearOrder β] (key : α → β) :
    ∀ (xs : List α) (x : α),
      (xs.foldl (fun b a => if key b < key a then a else b) x = x ∨
        xs.foldl (fun b a => if key b < key a then a else b) x ∈ xs) ∧
      key x ≤ key (xs.foldl (fun b a => if key b < key a then a else b) x) ∧
      ∀ a ∈ xs, key a ≤ key (xs.foldl (fun b a => if key b < key a then a else b) x) := by
  intro xs
  induction xs with
  | nil => intro x; exact ⟨Or.inl rfl, le_refl _, by simp⟩
  | cons y ys ih =>
    intro x
    rw [List.foldl_cons]
    obtain ⟨hmem, hle, hall⟩ := ih (if key x < key y then y else x)
    by_cases hxy : key x < key y
    · rw [if_pos hxy] at hmem hle hall ⊢
      refine ⟨?_, le_trans (le_of_lt hxy) hle, ?_⟩
      · rcases hmem with h | h
        · exact Or.inr (by rw [h]; exact List.mem_cons_self y ys)
        · exact Or.inr (List.mem_cons_of_mem y h)
      · intro a ha
        rcases List.mem_cons.mp ha with rfl | ha
        · exact hle
        · exact hall a ha
    · rw [if_neg hxy] at hmem hle hall ⊢
      refine ⟨?_, hle, ?_⟩
      · rcases hmem with h | h
        · exact Or.inl h
        · exact Or.inr (List.mem_cons_of_mem y h)
      · intro a ha
        rcases List.mem_cons.mp ha with rfl | ha
        · exact le_trans (le_of_not_lt hxy) hle
        · exact hall a ha

theorem argmaxKey_mem {α β : Type} [LinearOrder β] {key : α → β} {l : List α} {x : α}
    (h : argmaxKey key l = some x) : x ∈ l := by
  match l with
  | [] => simp [argmaxKey] at h
  | y :: ys =>
    rw [argmaxKey, Option.some_inj] at h
    obtain ⟨hmem, _, _⟩ := argmax_foldl_spec key ys y
    rcases hmem with hm | hm
    · rw [← h, hm]; exact List.mem_cons_self y ys
    · rw [← h]; exact List.mem_cons_of_mem y hm

theorem argmaxKey_ge {α β : Type} [LinearOrder β] {key : α → β} {l : List α} {x : α}
    (h : argmaxKey key l = some x) : ∀ a ∈ l, key a ≤ key x := by
  match l with
  | [] => simp [argmaxKey] at h
  | y :: ys =>
    rw [argmaxKey, Option.some_inj] at h
    obtain ⟨_, hle, hall⟩ := argmax_foldl_spec key ys y
    intro a ha
    rcases List.mem_cons.mp ha with rfl | ha
    · exact h ▸ hle
    · exact h ▸ hall a ha

theorem argmaxKey_eq_none {α β : Type} [LinearOrder β] {key : α → β} {l : List α} :
    argmaxKey key l = none ↔ l = [] := by
  match l with
  | [] => simp [argmaxKey]
  | y :: ys => simp [argmaxKey]

/-! Helper lemmas about costs. -/

theorem edgeCost_nonneg {c : Connection} (h : 0 ≤ c.distance) : 0 ≤ edgeCost c := by
  rw [edgeCost]
  have h1 : 0 ≤ c.distance * speedFactor c.ctype := by
    apply mul_nonneg h
    cases c.ctype <;> norm_num [speedFactor]
  have h2 : 0 ≤ fixedPenalty c.ctype := by
    cases c.ctype <;> norm_num [fixedPenalty]
  linarith

theorem pathCost_sublist_le {q p : List Connection} (hsub : q.Sublist p)
    (hnn : ∀ c ∈ p, 0 ≤ edgeCost c) : pathCost q ≤ pathCost p := by
  rw [pathCost, pathCost]
  apply List.Sublist.sum_le_sum (hsub.map edgeCost)
  intro a ha
  rw [List.mem_map] at ha
  obtain ⟨c, hc, rfl⟩ := ha
  exact hnn c hc

theorem all_of_sublist {q p : List Connection} {f : Connection → Bool}
    (hsub : q.Sublist p) (h : p.all f = true) : q.all f = true := by
  rw [List.all_eq_true] at h ⊢
  exact fun c hc => h c (hsub.subset hc)

theorem strictKey_le_iff {a b : List Connection} :
    strictKey a ≤ strictKey b ↔
      tieLe (pathCost a) (pathDist a) (transitions a)
        (pathCost b) (pathDist b) (transitions b) := by
  rw [strictKey, strictKey, tieLe, Prod.Lex.le_iff]
  constructor
  · rintro (h | ⟨h1, h2⟩)
    · exact Or.inl h
    · refine Or.inr ⟨h1, ?_⟩
      rw [Prod.Lex.le_iff] at h2
      exact h2
  · rintro (h | ⟨h1, h2⟩)
    · exact Or.inl h
    · exact Or.inr ⟨h1, (Prod.Lex.le_iff _ _).mpr h2⟩

theorem relaxedKey_le_iff {s : RouterSettings} {a b : List Connection} :
    relaxedKey s a ≤ relaxedKey s b ↔
      tieLe (relaxedPathCost s a) (pathDist a) (transitions a)
        (relaxedPathCost s b) (pathDist b) (transitions b) := by
  rw [relaxedKey, relaxedKey, tieLe, Prod.Lex.le_iff]
  constructor
  · rintro (h | ⟨h1, h2⟩)
    · exact Or.inl h
    · refine Or.inr ⟨h1, ?_⟩
      rw [Prod.Lex.le_iff] at h2
      exact h2
  · rintro (h | ⟨h1, h2⟩)
    · exact Or.inl h
    · exact Or.inr ⟨h1, (Prod.Lex.le_iff _ _).mpr h2⟩

theorem tieLe_cost_le {c1 d1 t1 c2 d2 t2} (h : tieLe c1 d1 t1 c2 d2 t2) : c1 ≤ c2 := by
  rcases h with h | ⟨h, _⟩
  · exact le_of_lt h
  · exact le_of_eq h

/-! Helper lemmas about `get_route`. -/

theorem get_route_strict_eq {g : Graph} {s : RouterSettings} {o d : Nat}
    {p : List Connection}
    (h : argminKey strictKey ((simplePaths g o d).filter (pathStrictAllowed g s)) = some p) :
    get_route g s o d = ([], some ⟨p, o, d, false⟩) := by
  rw [get_route]
  simp only [h]

theorem get_route_relaxed_eq {g : Graph} {s : RouterSettings} {o d : Nat}
    {p : List Connection}
    (h1 : argminKey strictKey ((simplePaths g o d).filter (pathStrictAllowed g s)) = none)
    (h2 : argminKey (relaxedKey s) ((simplePaths g o d).filter (pathDirAllowed g s)) = some p) :
    get_route g s o d = ([], some ⟨p, o, d, true⟩) := by
  rw [get_route]
  simp only [h1, h2]

theorem get_route_none_eq {g : Graph} {s : RouterSettings} {o d : Nat}
    (h1 : argminKey strictKey ((simplePaths g o d).filter (pathStrictAllowed g s)) = none)
    (h2 : argminKey (relaxedKey s) ((simplePaths g o d).filter (pathDirAllowed g s)) = none) :
    get_route g s o d = ([(Severity.error, noRouteMsg)], none) := by
  rw [get_route]
  simp only [h1, h2]

/-- A strictly allowed path between two endpoints yields a strictly allowed
simple path of the enumeration between them. -/
theorem exists_simple_strict {g : Graph} {s : RouterSettings} {o d : Nat}
    {p : List Connection} (hp : isPath g o d p = true)
    (ha : pathStrictAllowed g s p = true) :
    ∃ q ∈ (simplePaths g o d).filter (pathStrictAllowed g s), q.Sublist p := by
  obtain ⟨q, hsub, hqchain, hqnodup⟩ :=
    chain_to_simple p.length o p (le_refl _) (isChain_of_isPath hp)
  refine ⟨q, ?_, hsub⟩
  rw [List.mem_filter]
  exact ⟨simplePaths_complete hqchain
      (fun c hc => mem_connections_of_isPath hp c (hsub.subset hc)) hqnodup,
    all_of_sublist hsub ha⟩

/-- A direction-respecting path between two endpoints yields a
direction-respecting simple path of the enumeration between them. -/
theorem exists_simple_dir {g : Graph} {s : RouterSettings} {o d : Nat}
    {p : List Connection} (hp : isPath g o d p = true)
    (ha : pathDirAllowed g s p = true) :
    ∃ q ∈ (simplePaths g o d).filter (pathDirAllowed g s), q.Sublist p := by
  obtain ⟨q, hsub, hqchain, hqnodup⟩ :=
    chain_to_simple p.length o p (le_refl _) (isChain_of_isPath hp)
  refine ⟨q, ?_, hsub⟩
  rw [List.mem_filter]
  exact ⟨simplePaths_complete hqchain
      (fun c hc => mem_connections_of_isPath hp c (hsub.subset hc)) hqnodup,
    all_of_sublist hsub ha⟩

/-- When the strict candidate list of the enumeration is empty, no strictly
allowed path at all joins the endpoints. -/
theorem no_strict_path_of_filter_nil {g : Graph} {s : RouterSettings} {o d : Nat}
    (h : (simplePaths g o d).filter (pathStrictAllowed g s) = []) :
    ∀ p, isPath g o d p = true → pathStrictAllowed g s p = true → False := by
  intro p hp ha
  obtain ⟨q, hq, _⟩ := exists_simple_strict hp ha
  rw [h] at hq
  exact List.not_mem_nil q hq

/-- When the direction-respecting candidate list of the enumeration is empty,
no direction-respecting path at all joins the endpoints. -/
theorem no_dir_path_of_filter_nil {g : Graph} {s : RouterSettings} {o d : Nat}
    (h : (simplePaths g o d).filter (pathDirAllowed g s) = []) :
    ∀ p, isPath g o d p = true → pathDirAllowed g s p = true → False := by
  intro p hp ha
  obtain ⟨q, hq, _⟩ := exists_simple_dir hp ha
  rw [h] at hq
  exact List.not_mem_nil q hq

/-! Helper lemmas about `describe` and the segment collapse. -/

theorem collapseGo_sum (g : Graph) :
    ∀ (l : List Connection) (t : CType) (dr : TravelDir) (acc : ℚ),
      ((collapseGo g t dr acc l).map Segment.distance).sum =
        acc + (l.map Connection.distance).sum := by
  intro l
  induction l with
  | nil => intro t dr acc; simp [collapseGo]
  | cons c rest ih =>
    intro t dr acc
    rw [collapseGo]
    by_cases h : (c.ctype == t && travelDir g c == dr) = true
    · rw [if_pos h, ih]
      simp only [List.map_cons, List.sum_cons]
      ring
    · rw [if_neg h]
      simp only [List.map_cons, List.sum_cons, ih]

theorem collapseGo_head (g : Graph) :
    ∀ (l : List Connection) (t : CType) (dr : TravelDir) (acc : ℚ),
      ∃ d2 u rest, collapseGo g t dr acc l = (⟨d2, u, t, dr⟩ : Segment) :: rest := by
  intro l
  induction l with
  | nil => intro t dr acc; exact ⟨acc, segDuration t acc, [], rfl⟩
  | cons c rest ih =>
    intro t dr acc
    rw [collapseGo]
    by_cases h : (c.ctype == t && travelDir g c == dr) = true
    · rw [if_pos h]; exact ih t dr (acc + c.distance)
    · rw [if_neg h]
      exact ⟨acc, segDuration t acc, _, rfl⟩

/-- Adjacent segments of the collapse differ in ctype or travel direction:
the collapsed runs are maximal. -/
theorem collapseGo_chain (g : Graph) :
    ∀ (l : List Connection) (t : CType) (dr : TravelDir) (acc : ℚ),
      List.Chain' (fun s1 s2 => s1.ctype ≠ s2.ctype ∨ s1.dir ≠ s2.dir)
        (collapseGo g t dr acc l) := by
  intro l
  induction l with
  | nil => intro t dr acc; simp [collapseGo]
  | cons c rest ih =>
    intro t dr acc
    rw [collapseGo]
    by_cases h : (c.ctype == t && travelDir g c == dr) = true
    · rw [if_pos h]; exact ih t dr (acc + c.distance)
    · rw [if_neg h]
      rw [List.chain'_cons']
      refine ⟨?_, ih c.ctype (travelDir g c) c.distance⟩
      intro y hy
      obtain ⟨d2, u, rest2, heq⟩ := collapseGo_head g rest c.ctype (travelDir g c) c.distance
      rw [heq] at hy
      simp only [List.head?_cons, Option.mem_some_iff] at hy
      subst hy
      rw [Bool.and_eq_true] at h
      by_cases h1 : c.ctype = t
      · refine Or.inr ?_
        intro hdr
        have hdr2 : dr = travelDir g c := hdr
        exact h ⟨by simp [h1], by simp [hdr2]⟩
      · refine Or.inl ?_
        intro ht
        have ht2 : t = c.ctype := ht
        exact h1 ht2.symm

/-! Helper lemmas about the locator. -/

theorem candidates_nil_iff {idx : FingerprintIndex} {readings : Readings} :
    candidates idx readings = [] ↔ ∀ e ∈ readings, stationKnown idx e.1 = false := by
  rw [candidates, List.filter_eq_nil_iff]
  constructor
  · intro h e he
    rw [stationKnown]
    rw [Bool.eq_false_iff]
    intro hany
    rw [List.any_eq_true] at hany
    obtain ⟨r, hr, hf⟩ := hany
    have := h r hr
    simp only [decide_eq_true_eq, Nat.pos_iff_ne_zero, ne_eq, not_not] at this
    rw [matchedCount, List.length_eq_zero, List.filter_eq_nil_iff] at this
    exact absurd hf (by simpa using this e he)
  · intro h r hr
    simp only [decide_eq_true_eq, Nat.pos_iff_ne_zero, ne_eq, not_not]
    rw [matchedCount, List.length_eq_zero, List.filter_eq_nil_iff]
    intro e he
    have := h e he
    rw [stationKnown, Bool.eq_false_iff] at this
    intro hf
    apply this
    rw [List.any_eq_true]
    exact ⟨r, hr, hf⟩

theorem pathDir_of_strict {g : Graph} {s : RouterSettings} {p : List Connection}
    (h : pathStrictAllowed g s p = true) : pathDirAllowed g s p = true := by
  rw [pathStrictAllowed, List.all_eq_true] at h
  rw [pathDirAllowed, List.all_eq_true]
  intro c hc
  exact ((Bool.and_eq_true _ _).mp (h c hc)).2

/-! The claims. -/

/-- C1, counterexample to the claim as stated: in `stairsUpGraph` the
destination is reachable without constraints (the one stairs connection),
no policy is `deny`, yet with the stairs policy `down-only` the router
returns no route at all: directional restrictions are never relaxed, so
reachability without constraints does not suffice for a route. -/
theorem get_route_unconstrained_reachable_cex :
    (∃ p, isPath stairsUpGraph 0 1 p = true) ∧
    (∀ c ∈ stairsUpGraph.connections,
      policyFor downOnlySettings c.ctype ≠ Policy.deny) ∧
    (get_route stairsUpGraph downOnlySettings 0 1).2 = none :=
  ⟨⟨[⟨0, 1, 5, .stairs⟩], by decide⟩, by decide, by decide⟩

/-- C1 (amended): for every graph with non-negative connection distances and
every origin/destination pair joined by at least one path honoring the
settings (no denied ctype, directional restrictions respected), `get_route`
returns a non-relaxed route that itself honors the settings and whose total
cost is minimal among all settings-honoring paths, in particular among all
paths avoiding every denied ctype. -/
theorem get_route_strict_optimal (g : Graph) (s : RouterSettings) (o d : Nat)
    (hnn : ∀ c ∈ g.connections, 0 ≤ c.distance)
    (hex : ∃ p, isPath g o d p = true ∧ pathStrictAllowed g s p = true) :
    ∃ r, (get_route g s o d).2 = some r ∧ r.relaxed = false ∧
      isPath g o d r.path = true ∧ pathStrictAllowed g s r.path = true ∧
      ∀ p, isPath g o d p = true → pathStrictAllowed g s p = true →
        pathCost r.path ≤ pathCost p := by
  obtain ⟨p0, hp0, ha0⟩ := hex
  obtain ⟨q0, hq0, _⟩ := exists_simple_strict hp0 ha0
  cases harg : argminKey strictKey ((simplePaths g o d).filter (pathStrictAllowed g s)) with
  | none => exact absurd (argminKey_eq_none.mp harg) (List.ne_nil_of_mem hq0)
  | some rp =>
    have hroute := get_route_strict_eq harg
    have hmem := argminKey_mem harg
    rw [List.mem_filter] at hmem
    refine ⟨⟨rp, o, d, false⟩, by rw [hroute], rfl, simplePaths_sound hmem.1, hmem.2, ?_⟩
    intro p hp hap
    obtain ⟨q, hq, hsubq⟩ := exists_simple_strict hp hap
    have hkey := argminKey_le harg q hq
    have h1 : pathCost rp ≤ pathCost q := tieLe_cost_le (strictKey_le_iff.mp hkey)
    have h2 : pathCost q ≤ pathCost p :=
      pathCost_sublist_le hsubq
        (fun c hc => edgeCost_nonneg (hnn c (mem_connections_of_isPath hp c hc)))
    exact le_trans h1 h2

/-- C1, witness: the amended theorem applied to the concrete `plainGraph`
with everything allowed. -/
theorem get_route_strict_optimal_witness :
    ∃ r, (get_route plainGraph allowAll 0 1).2 = some r ∧ r.relaxed = false ∧
      isPath plainGraph 0 1 r.path = true ∧
      pathStrictAllowed plainGraph allowAll r.path = true ∧
      ∀ p, isPath plainGraph 0 1 p = true →
        pathStrictAllowed plainGraph allowAll p = true →
          pathCost r.path ≤ pathCost p :=
  get_route_strict_optimal plainGraph allowAll 0 1 (by decide)
    ⟨[⟨0, 1, 10, .plain⟩], by decide⟩

/-- C2: when no path honors every deny constraint but a direction-respecting
path exists, the router retries with denies penalized, marks the result
relaxed, `describe` reports `had_avoided_ctypes = true` and the main handler
surfaces the warning message; when no direction-respecting path exists at
all, the route is absent together with the explanatory message, never an
unhandled failure. -/
theorem get_route_relaxation (g : Graph) (s : RouterSettings) (o d : Nat) :
    ((∀ p, isPath g o d p = true → pathStrictAllowed g s p = true → False) →
      (∃ p, isPath g o d p = true ∧ pathDirAllowed g s p = true) →
      ∃ r, (get_route g s o d).2 = some r ∧ r.relaxed = true ∧
        (describe g r).2 = true ∧
        (Severity.warn, relaxWarning) ∈ (mainRouteHandling g s o d).1) ∧
    ((∀ p, isPath g o d p = true → pathDirAllowed g s p = true → False) →
      get_route g s o d = ([(Severity.error, noRouteMsg)], none) ∧
      (mainRouteHandling g s o d).2 = none) := by
  constructor
  · intro hnostrict hdir
    have hsf : (simplePaths g o d).filter (pathStrictAllowed g s) = [] := by
      rw [List.eq_nil_iff_forall_not_mem]
      intro q hq
      rw [List.mem_filter] at hq
      exact hnostrict q (simplePaths_sound hq.1) hq.2
    obtain ⟨p0, hp0, hd0⟩ := hdir
    obtain ⟨q0, hq0, _⟩ := exists_simple_dir hp0 hd0
    cases harg : argminKey (relaxedKey s) ((simplePaths g o d).filter (pathDirAllowed g s)) with
    | none => exact absurd (argminKey_eq_none.mp harg) (List.ne_nil_of_mem hq0)
    | some rp =>
      have hroute := get_route_relaxed_eq (argminKey_eq_none.mpr hsf) harg
      refine ⟨⟨rp, o, d, true⟩, by rw [hroute], rfl, rfl, ?_⟩
      rw [mainRouteHandling]
      simp only [hroute, describe]
      simp
  · intro hnodir
    have hdf : (simplePaths g o d).filter (pathDirAllowed g s) = [] := by
      rw [List.eq_nil_iff_forall_not_mem]
      intro q hq
      rw [List.mem_filter] at hq
      exact hnodir q (simplePaths_sound hq.1) hq.2
    have hsf : (simplePaths g o d).filter (pathStrictAllowed g s) = [] := by
      rw [List.eq_nil_iff_forall_not_mem]
      intro q hq
      rw [List.mem_filter] at hq
      exact hnodir q (simplePaths_sound hq.1) (pathDir_of_strict hq.2)
    have hroute := get_route_none_eq (argminKey_eq_none.mpr hsf) (argminKey_eq_none.mpr hdf)
    refine ⟨hroute, ?_⟩
    rw [mainRouteHandling]
    simp only [hroute]

/-- C2, witness: denying elevators in the elevator-only scenario yields a
relaxed route with the warning; routing across `disconnectedGraph` yields the
absent route with the explanatory message. -/
theorem get_route_relaxation_witness :
    (∃ r, (get_route elevatorGraph denyElevators 0 1).2 = some r ∧
      r.relaxed = true ∧ (describe elevatorGraph r).2 = true ∧
      (Severity.warn, relaxWarning) ∈ (mainRouteHandling elevatorGraph denyElevators 0 1).1) ∧
    (get_route disconnectedGraph allowAll 0 1 = ([(Severity.error, noRouteMsg)], none) ∧
      (mainRouteHandling disconnectedGraph allowAll 0 1).2 = none) :=
  ⟨(get_route_relaxation elevatorGraph denyElevators 0 1).1
      (no_strict_path_of_filter_nil (by decide))
      ⟨[⟨0, 1, 10, .elevator⟩], by decide⟩,
    (get_route_relaxation disconnectedGraph allowAll 0 1).2
      (no_dir_path_of_filter_nil (by decide))⟩

/-- C3: for every route, `describe` produces its segments by collapsing
consecutive connections of identical ctype and travel direction, in traversal
order: the segment distances sum exactly to the total path distance, and
adjacent segments always differ in ctype or direction (the collapsed runs are
maximal). -/
theorem describe_distance_sum (g : Graph) (r : Route) :
    (((describe g r).1.map Segment.distance).sum = pathDist r.path) ∧
    List.Chain' (fun s1 s2 => s1.ctype ≠ s2.ctype ∨ s1.dir ≠ s2.dir)
      (describe g r).1 := by
  constructor
  · show ((collapseSegments g r.path).map Segment.distance).sum = pathDist r.path
    cases hp : r.path with
    | nil => simp [collapseSegments, pathDist]
    | cons c rest =>
      rw [collapseSegments, collapseGo_sum, pathDist]
      simp
  · show List.Chain' _ (collapseSegments g r.path)
    cases hp : r.path with
    | nil => simp [collapseSegments]
    | cons c rest =>
      rw [collapseSegments]
      exact collapseGo_chain g rest c.ctype (travelDir g c) c.distance

/-- C4: `get_route` and `describe` are pure functions of the graph, settings
and endpoints, so repeated calls agree; and the returned route is minimal
under the deterministic tie-break order: total cost first, then total
distance, then fewer connection-type transitions, among the candidate paths
of its search phase. -/
theorem get_route_deterministic (g : Graph) (s : RouterSettings) (o d : Nat) :
    (get_route g s o d = get_route g s o d ∧
      mainRouteHandling g s o d = mainRouteHandling g s o d) ∧
    (∀ r, (get_route g s o d).2 = some r → r.relaxed = false →
      ∀ p, p ∈ simplePaths g o d → pathStrictAllowed g s p = true →
        tieLe (pathCost r.path) (pathDist r.path) (transitions r.path)
          (pathCost p) (pathDist p) (transitions p)) ∧
    (∀ r, (get_route g s o d).2 = some r → r.relaxed = true →
      ∀ p, p ∈ simplePaths g o d → pathDirAllowed g s p = true →
        tieLe (relaxedPathCost s r.path) (pathDist r.path) (transitions r.path)
          (relaxedPathCost s p) (pathDist p) (transitions p)) := by
  refine ⟨⟨rfl, rfl⟩, ?_, ?_⟩
  · intro r hr hrel p hp hap
    cases harg : argminKey strictKey ((simplePaths g o d).filter (pathStrictAllowed g s)) with
    | some q =>
      rw [get_route_strict_eq harg] at hr
      simp only [Option.some.injEq] at hr
      subst hr
      have hkey := argminKey_le harg p (List.mem_filter.mpr ⟨hp, hap⟩)
      exact strictKey_le_iff.mp hkey
    | none =>
      cases harg2 : argminKey (relaxedKey s) ((simplePaths g o d).filter (pathDirAllowed g s)) with
      | some q =>
        rw [get_route_relaxed_eq harg harg2] at hr
        simp only [Option.some.injEq] at hr
        subst hr
        simp at hrel
      | none =>
        rw [get_route_none_eq harg harg2] at hr
        exact absurd hr (by simp)
  · intro r hr hrel p hp hap
    cases harg : argminKey strictKey ((simplePaths g o d).filter (pathStrictAllowed g s)) with
    | some q =>
      rw [get_route_strict_eq harg] at hr
      simp only [Option.some.injEq] at hr
      subst hr
      simp at hrel
    | none =>
      cases harg2 : argminKey (relaxedKey s) ((simplePaths g o d).filter (pathDirAllowed g s)) with
      | some q =>
        rw [get_route_relaxed_eq harg harg2] at hr
        simp only [Option.some.injEq] at hr
        subst hr
        have hkey := argminKey_le harg2 p (List.mem_filter.mpr ⟨hp, hap⟩)
        exact relaxedKey_le_iff.mp hkey
      | none =>
        rw [get_route_none_eq harg harg2] at hr
        exact absurd hr (by simp)

/-- C4, witness: the tie-break minimality read off on the concrete
`plainGraph` route. -/
theorem get_route_deterministic_witness :
    tieLe (pathCost [⟨0, 1, 10, .plain⟩]) (pathDist [⟨0, 1, 10, .plain⟩])
      (transitions [⟨0, 1, 10, .plain⟩])
      (pathCost [⟨0, 1, 10, .plain⟩]) (pathDist [⟨0, 1, 10, .plain⟩])
      (transitions [⟨0, 1, 10, .plain⟩]) :=
  (get_route_deterministic plainGraph allowAll 0 1).2.1
    ⟨[⟨0, 1, 10, .plain⟩], 0, 1, false⟩ (by decide) rfl
    [⟨0, 1, 10, .plain⟩] (by decide) (by decide)

/-- C5: `connect_position` on a position farther than the snapping radius
from every node yields a `UserPosition` with zero temporary edges, and on a
position coinciding with a node of its level yields a zero-cost attachment
edge to that node. -/
theorem connect_position_spec (g : Graph) (p : Position) :
    ((∀ n ∈ g.nodes, snapRadius < estWalkDist p n) →
      (connect_position g p).edges = []) ∧
    (∀ n ∈ g.nodes, n.level = p.level → n.x = p.x → n.y = p.y →
      (⟨n.id, 0⟩ : TempEdge) ∈ (connect_position g p).edges) := by
  constructor
  · intro hfar
    show (List.map _ (List.filter _ g.nodes)) = []
    rw [List.map_eq_nil_iff, List.filter_eq_nil_iff]
    intro n hn
    rw [Bool.and_eq_true]
    rintro ⟨-, habs⟩
    rw [decide_eq_true_eq] at habs
    exact absurd habs (not_le.mpr (hfar n hn))
  · intro n hn hlev hx hy
    show (⟨n.id, 0⟩ : TempEdge) ∈ List.map _ (List.filter _ g.nodes)
    rw [List.mem_map]
    refine ⟨n, ?_, ?_⟩
    · rw [List.mem_filter]
      refine ⟨hn, ?_⟩
      rw [Bool.and_eq_true]
      constructor
      · simp [hlev]
      · rw [decide_eq_true_eq, estWalkDist, hx, hy]
        norm_num [ratAbs, snapRadius]
    · rw [estWalkDist, hx, hy]
      simp only [sub_self]
      norm_num [ratAbs]

/-- C5, witness: the concrete far position gets no attachment edges; the
position coinciding with node 0 of `plainGraph` gets a zero-cost edge to
it. -/
theorem connect_position_spec_witness :
    (connect_position plainGraph farPosition).edges = [] ∧
    (⟨0, 0⟩ : TempEdge) ∈ (connect_position plainGraph atNodePosition).edges :=
  ⟨(connect_position_spec plainGraph farPosition).1
      (by norm_num [plainGraph, farPosition, estWalkDist, ratAbs, snapRadius]),
    (connect_position_spec plainGraph atNodePosition).2 ⟨0, 0, 0, 0⟩ (by decide)
      rfl rfl rfl⟩

/-- C6: `locate` returns `none` exactly when no submitted station identifier
is known to the index or the best candidate scores below the
minimum-confidence threshold; otherwise it returns the highest-scoring
candidate's position together with its score and matched station count. -/
theorem locate_contract (idx : FingerprintIndex) (readings : Readings) :
    (locate idx readings = none ↔
      ((∀ e ∈ readings, stationKnown idx e.1 = false) ∨
        (∃ best, argmaxKey (fun r => score r readings) (candidates idx readings) = some best ∧
          score best readings < minConfidence))) ∧
    (∀ pos sc m, locate idx readings = some (pos, sc, m) →
      ∃ best, best ∈ candidates idx readings ∧ pos = best.pos ∧
        sc = score best readings ∧ m = matchedCount best readings ∧
        minConfidence ≤ sc ∧
        ∀ r ∈ candidates idx readings, score r readings ≤ sc) := by
  cases harg : argmaxKey (fun r => score r readings) (candidates idx readings) with
  | none =>
    have hnil : candidates idx readings = [] := argmaxKey_eq_none.mp harg
    have hloc : locate idx readings = none := by rw [locate]; simp [harg]
    constructor
    · rw [hloc]
      constructor
      · intro _
        exact Or.inl (candidates_nil_iff.mp hnil)
      · intro _
        rfl
    · intro pos sc m h
      rw [hloc] at h
      exact absurd h (by simp)
  | some best =>
    have hloc : locate idx readings =
        if score best readings < minConfidence then none
        else some (best.pos, score best readings, matchedCount best readings) := by
      rw [locate]; simp [harg]
    by_cases hlt : score best readings < minConfidence
    · rw [if_pos hlt] at hloc
      constructor
      · rw [hloc]
        constructor
        · intro _
          exact Or.inr ⟨best, rfl, hlt⟩
        · intro _
          rfl
      · intro pos sc m h
        rw [hloc] at h
        exact absurd h (by simp)
    · rw [if_neg hlt] at hloc
      constructor
      · rw [hloc]
        constructor
        · intro h
          exact absurd h (by simp)
        · rintro (hk | ⟨b, hb, hblt⟩)
          · have hnil : candidates idx readings = [] := candidates_nil_iff.mpr hk
            rw [hnil] at harg
            simp [argmaxKey] at harg
          · have hbb : best = b := Option.some_inj.mp hb
            exact absurd (hbb ▸ hblt) hlt
      · intro pos sc m h
        rw [hloc] at h
        simp only [Option.some.injEq, Prod.mk.injEq] at h
        obtain ⟨h1, h2, h3⟩ := h
        refine ⟨best, argmaxKey_mem harg, h1.symm, h2.symm, h3.symm, ?_, ?_⟩
        · rw [← h2]
          exact le_of_not_lt hlt
        · intro r hr
          rw [← h2]
          exact argmaxKey_ge harg r hr

/-- C6, witness: readings naming only unknown stations give the absent
result. -/
theorem locate_contract_witness : locate idx1 unknownReadings = none :=
  (locate_contract idx1 unknownReadings).1.mpr (Or.inl (by decide))

/-- C7: evaluating the embedded settings pipeline at the failing input.  With
an empty request source and a cookie storing the list `["no"]` under the
string-policy field `steps`, the type check of `main.py` line 119
(`isinstance(cookie_value, Iterable) and isinstance(default_value, str)`)
accepts the list, so the wrong-kind value is kept instead of falling back to
the schema default `"yes"`; for the list-schema field `e` a wrong-kind string
cookie value is ignored, as the claim expects. -/
theorem settings_wrong_kind_kept :
    (routerSettings emptySrc listStepsCookie =
      [("steps", PyVal.list [PyVal.str "no"]), ("stairs", PyVal.str "yes"),
        ("escalators", PyVal.str "yes"), ("elevators", PyVal.str "yes"),
        ("e", PyVal.list [])]) ∧
    (routerSettings emptySrc [("e", PyVal.str "zz")] = default_settings) :=
  ⟨rfl, rfl⟩

/-- C8: a graph constructed with `load_wifi` disabled has no locator, and any
locate call through it is the configuration error, never a silent success;
with `load_wifi` enabled the locator is present. -/
theorem wifi_disabled_locator_unavailable :
    ∀ (nodes : List Node) (conns : List Connection) (idx : FingerprintIndex)
      (readings : Readings),
      (loadGraph nodes conns idx false).wifi = none ∧
      (loadGraph nodes conns idx true).wifi = some idx ∧
      locateCall (loadGraph nodes conns idx false) readings =
        .error .wifiNotLoaded ∧
      ∀ res, locateCall (loadGraph nodes conns idx false) readings ≠ .ok res := by
  intro nodes conns idx readings
  refine ⟨rfl, rfl, rfl, ?_⟩
  intro res h
  simp [locateCall, loadGraph] at h

/-- C9: attaching a `UserPosition` leaves the shared graph unchanged: the
stored nodes and connections are as before, a later `connect_position` of any
other request sees the same graph, and route searches are unaffected — the
temporary edges live only in the returned request-local `UserPosition`. -/
theorem connect_position_frame :
    ∀ (g : Graph) (p : Position),
      (connectPositionState g p).1 = g ∧
      (connectPositionState g p).1.nodes = g.nodes ∧
      (connectPositionState g p).1.connections = g.connections ∧
      (∀ q, connect_position (connectPositionState g p).1 q = connect_position g q) ∧
      (∀ s o d, get_route (connectPositionState g p).1 s o d = get_route g s o d) :=
  fun _ _ => ⟨rfl, rfl, rfl, fun _ => rfl, fun _ _ _ => rfl⟩

/-- C10: `get_locale` always returns a key of the `LANGUAGES` table, namely
the `lang` query parameter when that is a known language, otherwise the
`lang` cookie when that is a known language, otherwise `en`: the query
parameter takes precedence and unknown values are ignored. -/
theorem get_locale_spec (cookieLang argLang : Option String) :
    get_locale cookieLang argLang = claimedLocale cookieLang argLang ∧
    langKeys.contains (get_locale cookieLang argLang) = true := by
  cases argLang with
  | none =>
    cases cookieLang with
    | none => exact ⟨rfl, by decide⟩
    | some lc =>
      by_cases h : langKeys.contains lc = true
      · constructor
        · simp [get_locale, claimedLocale, h]
        · simp only [get_locale, h, if_true]
      · rw [Bool.not_eq_true] at h
        constructor
        · simp [get_locale, claimedLocale, h]
        · simp only [get_locale, h, Bool.false_eq_true, if_false]
          decide
  | some la =>
    cases cookieLang with
    | none =>
      by_cases h : langKeys.contains la = true
      · constructor
        · simp [get_locale, claimedLocale, h]
        · simp only [get_locale, h, if_true]
      · rw [Bool.not_eq_true] at h
        constructor
        · simp [get_locale, claimedLocale, h]
        · simp only [get_locale, h, Bool.false_eq_true, if_false]
          decide
    | some lc =>
      by_cases h : langKeys.contains la = true
      · by_cases h2 : langKeys.contains lc = true
        · constructor
          · simp [get_locale, claimedLocale, h, h2]
          · simp only [get_locale, h, h2, if_true]
        · rw [Bool.not_eq_true] at h2
          constructor
          · simp [get_locale, claimedLocale, h, h2]
          · simp only [get_locale, h, h2, Bool.false_eq_true, if_false, if_true]
      · rw [Bool.not_eq_true] at h
        by_cases h2 : langKeys.contains lc = true
        · constructor
          · simp [get_locale, claimedLocale, h, h2]
          · simp only [get_locale, h, h2, Bool.false_eq_true, if_false, if_true]
        · rw [Bool.not_eq_true] at h2
          constructor
          · simp [get_locale, claimedLocale, h, h2]
          · simp only [get_locale, h, h2, Bool.false_eq_true, if_false]
            decide

end C3nav
